import Mathlib

/-!
# DES chat: client envelope and relay server

A shallow embedding of `client/client.go` (key parsing, PKCS#5 padding, DES-CBC
envelope, the send and receive paths) and of `server/ser.go` (the connection
registry, the per-connection read loop, the bounded message queue and the
broadcaster), followed by the properties proved about them.

Go strings and byte slices are sequences of bytes; a byte is a `Fin 256`.
A Go call that may end the process is modelled by `Outcome`: it returns, or it
calls `log.Fatal` (which exits the process), or it panics.
-/

namespace DesChat

/-! ## Bytes, strings, outcomes -/

/-- One byte. -/
abbrev Byte := Fin 256

/-- A Go `string` (and a `[]byte` value): a finite sequence of bytes. -/
abbrev GoString := List Byte

/-- Go's conversion `byte(n)` of an integer: the low eight bits. -/
def byte (n : Nat) : Byte := ⟨n % 256, Nat.mod_lt n (by decide)⟩

/-- The bytes of a string literal, in UTF-8 as Go stores it. -/
def utf8Char (c : Char) : GoString :=
  let n := c.toNat
  if n < 0x80 then [byte n]
  else if n < 0x800 then [byte (0xC0 + n / 64), byte (0x80 + n % 64)]
  else if n < 0x10000 then
    [byte (0xE0 + n / 4096), byte (0x80 + n / 64 % 64), byte (0x80 + n % 64)]
  else
    [byte (0xF0 + n / 262144), byte (0x80 + n / 4096 % 64), byte (0x80 + n / 64 % 64),
      byte (0x80 + n % 64)]

/-- The bytes of a string literal. -/
def str (s : String) : GoString := s.data.flatMap utf8Char

/-- How a Go call ends: it returns a value, it calls `log.Fatal` (the message is
logged and the process exits with status 1), or it panics at run time. -/
inductive Outcome (α : Type) where
  | ret (a : α)
  | fatal
  | panic
  deriving DecidableEq, Repr

/-- Sequencing of calls: a fatal exit or a panic ends everything after it. -/
def Outcome.bind {α β : Type} (x : Outcome α) (f : α → Outcome β) : Outcome β :=
  match x with
  | .ret a => f a
  | .fatal => .fatal
  | .panic => .panic

/-! ## `encoding/hex` -/

/-- The table `hextable = "0123456789abcdef"` of `encoding/hex`, as a function
of the nibble. -/
def hextable (n : Nat) : Byte :=
  if n < 10 then byte (48 + n) else byte (87 + n)

/-- `hex.EncodeToString`: two lowercase hexadecimal digits per byte. -/
def EncodeToString : List Byte → GoString
  | [] => []
  | v :: rest => hextable (v.val / 16) :: hextable (v.val % 16) :: EncodeToString rest

/-- The `reverseHexTable` lookup of `encoding/hex`: the value of a hexadecimal
digit of either case, `none` for every other byte. -/
def fromHexChar (c : Byte) : Option Nat :=
  if 48 ≤ c.val ∧ c.val ≤ 57 then some (c.val - 48)
  else if 97 ≤ c.val ∧ c.val ≤ 102 then some (c.val - 97 + 10)
  else if 65 ≤ c.val ∧ c.val ≤ 70 then some (c.val - 65 + 10)
  else none

/-- `hex.DecodeString`: `some` bytes when the call returns a nil error, `none`
when it returns `InvalidByteError` (a byte that is no hexadecimal digit) or
`ErrLength` (odd length). -/
def DecodeString : GoString → Option (List Byte)
  | [] => some []
  | [_] => none
  | p :: q :: rest =>
    match fromHexChar p, fromHexChar q with
    | some a, some b =>
      match DecodeString rest with
      | some tl => some (byte (a * 16 + b) :: tl)
      | none => none
    | _, _ => none

/-! ## `crypto/des` and `crypto/cipher` -/

/-- The block size of DES, `des.BlockSize`. -/
def BlockSize : Nat := 8

/-- The single-block primitive behind `des.NewCipher(key)`: `Encrypt` and
`Decrypt` of `cipher.Block`. The library is not part of the repository, so the
primitive is a parameter; both operations write exactly one block. -/
structure BlockCipher where
  Encrypt : List Byte → List Byte → List Byte
  Decrypt : List Byte → List Byte → List Byte
  Encrypt_length : ∀ key b, b.length = BlockSize → (Encrypt key b).length = BlockSize
  Decrypt_length : ∀ key b, b.length = BlockSize → (Decrypt key b).length = BlockSize

/-- The block cipher's decryption inverts its encryption under `key`. -/
def BlockCipher.Inverts (C : BlockCipher) (key : List Byte) : Prop :=
  ∀ b : List Byte, b.length = BlockSize → C.Decrypt key (C.Encrypt key b) = b

/-- Exclusive or of two bytes, Go's `a ^ b`. -/
def xorByte (a b : Byte) : Byte :=
  ⟨a.val ^^^ b.val, Nat.xor_lt_two_pow (n := 8) a.isLt b.isLt⟩

/-- Bytewise exclusive or of two blocks, `subtle.XORBytes`. -/
def xorBytes (a b : List Byte) : List Byte := List.zipWith xorByte a b

/-- The first `n` blocks of `src`. -/
def blocks : Nat → List Byte → List (List Byte)
  | 0, _ => []
  | n + 1, src => src.take BlockSize :: blocks n (src.drop BlockSize)

/-- The loop of `cbcEncrypter.CryptBlocks`: each block is xored with the
previous ciphertext block (the IV for the first) and encrypted. -/
def cbcEncryptLoop (C : BlockCipher) (key : List Byte) :
    List Byte → List (List Byte) → List Byte
  | _, [] => []
  | iv, b :: bs =>
    let c := C.Encrypt key (xorBytes b iv)
    c ++ cbcEncryptLoop C key c bs

/-- The loop of `cbcDecrypter.CryptBlocks`: each block is decrypted and xored
with the previous ciphertext block (the IV for the first). -/
def cbcDecryptLoop (C : BlockCipher) (key : List Byte) :
    List Byte → List (List Byte) → List Byte
  | _, [] => []
  | iv, c :: cs => xorBytes (C.Decrypt key c) iv ++ cbcDecryptLoop C key c cs

/-- `cipher.NewCBCEncrypter(block, iv)` followed by `CryptBlocks(dst, src)` with
`dst` of the length of `src`: panics when the IV is not one block long or when
`src` is not a whole number of blocks. -/
def cbcEncrypt (C : BlockCipher) (key iv src : List Byte) : Outcome (List Byte) :=
  if iv.length ≠ BlockSize then .panic
  else if src.length % BlockSize ≠ 0 then .panic
  else .ret (cbcEncryptLoop C key iv (blocks (src.length / BlockSize) src))

/-- `cipher.NewCBCDecrypter(block, iv)` followed by `CryptBlocks(dst, src)` with
`dst` of the length of `src`: panics when the IV is not one block long or when
`src` is not a whole number of blocks. -/
def cbcDecrypt (C : BlockCipher) (key iv src : List Byte) : Outcome (List Byte) :=
  if iv.length ≠ BlockSize then .panic
  else if src.length % BlockSize ≠ 0 then .panic
  else .ret (cbcDecryptLoop C key iv (blocks (src.length / BlockSize) src))

/-! ## The Data Encryption Standard -/

/-- The bits of a byte, the most significant first. -/
def bitsOfByte (b : Byte) : List Bool :=
  [b.val.testBit 7, b.val.testBit 6, b.val.testBit 5, b.val.testBit 4,
   b.val.testBit 3, b.val.testBit 2, b.val.testBit 1, b.val.testBit 0]

/-- The bits of a byte string, the most significant bit of each byte first. -/
def toBits : List Byte → List Bool
  | [] => []
  | b :: rest => bitsOfByte b ++ toBits rest

/-- The number that a sequence of bits writes, the most significant first. -/
def natOfBits (bits : List Bool) : Nat :=
  bits.foldl (fun n b => 2 * n + (if b then 1 else 0)) 0

/-- The first `n` bytes that a sequence of bits writes. -/
def toBytes : Nat → List Bool → List Byte
  | 0, _ => []
  | n + 1, bits => byte (natOfBits (bits.take 8)) :: toBytes n (bits.drop 8)

/-- A bit selection: output bit `j` is input bit `table[j]`, positions counted
from 1 as in the standard. -/
def permute (table : List Nat) (bits : List Bool) : List Bool :=
  table.map fun i => bits.getD (i - 1) false

/-- The initial permutation. -/
def tableIP : List Nat :=
  [58, 50, 42, 34, 26, 18, 10, 2, 60, 52, 44, 36, 28, 20, 12, 4,
   62, 54, 46, 38, 30, 22, 14, 6, 64, 56, 48, 40, 32, 24, 16, 8,
   57, 49, 41, 33, 25, 17, 9, 1, 59, 51, 43, 35, 27, 19, 11, 3,
   61, 53, 45, 37, 29, 21, 13, 5, 63, 55, 47, 39, 31, 23, 15, 7]

/-- The final permutation, the inverse of the initial one. -/
def tableFP : List Nat :=
  [40, 8, 48, 16, 56, 24, 64, 32, 39, 7, 47, 15, 55, 23, 63, 31,
   38, 6, 46, 14, 54, 22, 62, 30, 37, 5, 45, 13, 53, 21, 61, 29,
   36, 4, 44, 12, 52, 20, 60, 28, 35, 3, 43, 11, 51, 19, 59, 27,
   34, 2, 42, 10, 50, 18, 58, 26, 33, 1, 41, 9, 49, 17, 57, 25]

/-- The expansion of the right half to 48 bits. -/
def tableE : List Nat :=
  [32, 1, 2, 3, 4, 5, 4, 5, 6, 7, 8, 9, 8, 9, 10, 11, 12, 13,
   12, 13, 14, 15, 16, 17, 16, 17, 18, 19, 20, 21, 20, 21, 22, 23, 24, 25,
   24, 25, 26, 27, 28, 29, 28, 29, 30, 31, 32, 1]

/-- The permutation that ends the round function. -/
def tableP : List Nat :=
  [16, 7, 20, 21, 29, 12, 28, 17, 1, 15, 23, 26, 5, 18, 31, 10,
   2, 8, 24, 14, 32, 27, 3, 9, 19, 13, 30, 6, 22, 11, 4, 25]

/-- Permuted choice 1 of the key schedule. -/
def tablePC1 : List Nat :=
  [57, 49, 41, 33, 25, 17, 9, 1, 58, 50, 42, 34, 26, 18,
   10, 2, 59, 51, 43, 35, 27, 19, 11, 3, 60, 52, 44, 36,
   63, 55, 47, 39, 31, 23, 15, 7, 62, 54, 46, 38, 30, 22,
   14, 6, 61, 53, 45, 37, 29, 21, 13, 5, 28, 20, 12, 4]

/-- Permuted choice 2 of the key schedule. -/
def tablePC2 : List Nat :=
  [14, 17, 11, 24, 1, 5, 3, 28, 15, 6, 21, 10,
   23, 19, 12, 4, 26, 8, 16, 7, 27, 20, 13, 2,
   41, 52, 31, 37, 47, 55, 30, 40, 51, 45, 33, 48,
   44, 49, 39, 56, 34, 53, 46, 42, 50, 36, 29, 32]

/-- The left rotations of the key schedule, one per round. -/
def keyShifts : List Nat := [1, 1, 2, 2, 2, 2, 2, 2, 1, 2, 2, 2, 2, 2, 2, 1]

/-- The eight substitution boxes, each as four rows of sixteen values. -/
def sBoxes : List (List Nat) :=
  [[14, 4, 13, 1, 2, 15, 11, 8, 3, 10, 6, 12, 5, 9, 0, 7,
    0, 15, 7, 4, 14, 2, 13, 1, 10, 6, 12, 11, 9, 5, 3, 8,
    4, 1, 14, 8, 13, 6, 2, 11, 15, 12, 9, 7, 3, 10, 5, 0,
    15, 12, 8, 2, 4, 9, 1, 7, 5, 11, 3, 14, 10, 0, 6, 13],
   [15, 1, 8, 14, 6, 11, 3, 4, 9, 7, 2, 13, 12, 0, 5, 10,
    3, 13, 4, 7, 15, 2, 8, 14, 12, 0, 1, 10, 6, 9, 11, 5,
    0, 14, 7, 11, 10, 4, 13, 1, 5, 8, 12, 6, 9, 3, 2, 15,
    13, 8, 10, 1, 3, 15, 4, 2, 11, 6, 7, 12, 0, 5, 14, 9],
   [10, 0, 9, 14, 6, 3, 15, 5, 1, 13, 12, 7, 11, 4, 2, 8,
    13, 7, 0, 9, 3, 4, 6, 10, 2, 8, 5, 14, 12, 11, 15, 1,
    13, 6, 4, 9, 8, 15, 3, 0, 11, 1, 2, 12, 5, 10, 14, 7,
    1, 10, 13, 0, 6, 9, 8, 7, 4, 15, 14, 3, 11, 5, 2, 12],
   [7, 13, 14, 3, 0, 6, 9, 10, 1, 2, 8, 5, 11, 12, 4, 15,
    13, 8, 11, 5, 6, 15, 0, 3, 4, 7, 2, 12, 1, 10, 14, 9,
    10, 6, 9, 0, 12, 11, 7, 13, 15, 1, 3, 14, 5, 2, 8, 4,
    3, 15, 0, 6, 10, 1, 13, 8, 9, 4, 5, 11, 12, 7, 2, 14],
   [2, 12, 4, 1, 7, 10, 11, 6, 8, 5, 3, 15, 13, 0, 14, 9,
    14, 11, 2, 12, 4, 7, 13, 1, 5, 0, 15, 10, 3, 9, 8, 6,
    4, 2, 1, 11, 10, 13, 7, 8, 15, 9, 12, 5, 6, 3, 0, 14,
    11, 8, 12, 7, 1, 14, 2, 13, 6, 15, 0, 9, 10, 4, 5, 3],
   [12, 1, 10, 15, 9, 2, 6, 8, 0, 13, 3, 4, 14, 7, 5, 11,
    10, 15, 4, 2, 7, 12, 9, 5, 6, 1, 13, 14, 0, 11, 3, 8,
    9, 14, 15, 5, 2, 8, 12, 3, 7, 0, 4, 10, 1, 13, 11, 6,
    4, 3, 2, 12, 9, 5, 15, 10, 11, 14, 1, 7, 6, 0, 8, 13],
   [4, 11, 2, 14, 15, 0, 8, 13, 3, 12, 9, 7, 5, 10, 6, 1,
    13, 0, 11, 7, 4, 9, 1, 10, 14, 3, 5, 12, 2, 15, 8, 6,
    1, 4, 11, 13, 12, 3, 7, 14, 10, 15, 6, 8, 0, 5, 9, 2,
    6, 11, 13, 8, 1, 4, 10, 7, 9, 5, 0, 15, 14, 2, 3, 12],
   [13, 2, 8, 4, 6, 15, 11, 1, 10, 9, 3, 14, 5, 0, 12, 7,
    1, 15, 13, 8, 10, 3, 7, 4, 12, 5, 6, 11, 0, 14, 9, 2,
    7, 11, 4, 1, 9, 12, 14, 2, 0, 6, 10, 13, 15, 3, 5, 8,
    2, 1, 14, 7, 4, 10, 8, 13, 15, 12, 9, 0, 3, 5, 6, 11]]

/-- Bitwise exclusive or of two bit sequences. -/
def xorBits (a b : List Bool) : List Bool := List.zipWith xor a b

/-- The four bits of a number below 16, the most significant first. -/
def nibble (n : Nat) : List Bool := [n.testBit 3, n.testBit 2, n.testBit 1, n.testBit 0]

/-- One substitution: of six bits the outer two select the row and the inner
four the column of the box. -/
def sLookup (box : List Nat) (six : List Bool) : List Bool :=
  let row := natOfBits [six.getD 0 false, six.getD 5 false]
  let col := natOfBits [six.getD 1 false, six.getD 2 false, six.getD 3 false, six.getD 4 false]
  nibble (box.getD (16 * row + col) 0)

/-- The eight substitutions of the round function, on 48 bits. -/
def substitute : List (List Nat) → List Bool → List Bool
  | [], _ => []
  | box :: boxes, bits => sLookup box (bits.take 6) ++ substitute boxes (bits.drop 6)

/-- The round function of DES. -/
def feistel (r subkey : List Bool) : List Bool :=
  permute tableP (substitute sBoxes (xorBits (permute tableE r) subkey))

/-- Rotation of a sequence to the left. -/
def rotl (n : Nat) (l : List Bool) : List Bool := l.drop n ++ l.take n

/-- The key schedule from the two 28-bit halves on. -/
def subkeysFrom : List Nat → List Bool → List Bool → List (List Bool)
  | [], _, _ => []
  | n :: shifts, c, d =>
    let c := rotl n c
    let d := rotl n d
    permute tablePC2 (c ++ d) :: subkeysFrom shifts c d

/-- The sixteen 48-bit round keys of a key. -/
def subkeys (key : List Byte) : List (List Bool) :=
  let cd := permute tablePC1 (toBits key)
  subkeysFrom keyShifts (cd.take 28) (cd.drop 28)

/-- One round: the halves are exchanged and the round function of the right
half is added to the left. -/
def round (lr : List Bool × List Bool) (subkey : List Bool) : List Bool × List Bool :=
  (lr.2, xorBits lr.1 (feistel lr.2 subkey))

/-- The DES computation on one block, under the round keys in the order
given. -/
def cryptBlock (ks : List (List Bool)) (block : List Byte) : List Byte :=
  let b := permute tableIP (toBits block)
  let lr := ks.foldl round (b.take 32, b.drop 32)
  toBytes 8 (permute tableFP (lr.2 ++ lr.1))

/-- DES, the block cipher of `crypto/des` (FIPS 46-3): decryption is
encryption under the round keys in reverse order. -/
def DES : BlockCipher where
  Encrypt key b := cryptBlock (subkeys key) b
  Decrypt key b := cryptBlock (subkeys key).reverse b
  Encrypt_length _ _ _ := rfl
  Decrypt_length _ _ _ := rfl

/-- Both halves of a block state are 32 bits long. -/
def Halves (lr : List Bool × List Bool) : Prop := lr.1.length = 32 ∧ lr.2.length = 32

/-! ## `client.go`: padding and the cipher envelope -/

/-- The function `padding` of `client.go`. -/
def padding (src : List Byte) (blockSize : Nat) : List Byte :=
  let padding := blockSize - src.length % blockSize
  let padtext := List.replicate padding (byte padding)
  src ++ padtext

/-- The function `unpadding` of `client.go`: `src[length-1]` panics on an empty
slice, and `src[:(length - unpadding)]` panics when the bound is negative. -/
def unpadding (src : List Byte) : Outcome (List Byte) :=
  let length := src.length
  match src.getLast? with
  | none => .panic
  | some last =>
    let unpadding := last.val
    if length < unpadding then .panic
    else .ret (src.take (length - unpadding))

/-- The function `desEncrypt` of `client.go`. `des.NewCipher` reports
`KeySizeError` for a key that is not 8 bytes long, and the code then calls
`log.Fatal`. -/
def desEncrypt (C : BlockCipher) (text : GoString) (key : List Byte) : Outcome GoString :=
  if key.length ≠ 8 then .fatal
  else
    let src := padding text BlockSize
    (cbcEncrypt C key key src).bind fun dst =>
    .ret (EncodeToString dst)

/-- The function `desDecrypt` of `client.go`. -/
def desDecrypt (C : BlockCipher) (encryptedText : GoString) (key : List Byte) :
    Outcome GoString :=
  if key.length ≠ 8 then .fatal
  else
    match DecodeString encryptedText with
    | none => .fatal
    | some src =>
      (cbcDecrypt C key key src).bind fun dst =>
      (unpadding dst).bind fun dst =>
      .ret dst

/-! ## `client.go`: key parsing -/

/-- The code points for which `unicode.IsSpace` holds: the Latin-1 spaces and
the `White_Space` table. -/
def spaceCodePoints : List Nat :=
  [0x09, 0x0A, 0x0B, 0x0C, 0x0D, 0x20, 0x85, 0xA0, 0x1680,
   0x2000, 0x2001, 0x2002, 0x2003, 0x2004, 0x2005, 0x2006, 0x2007, 0x2008, 0x2009, 0x200A,
   0x2028, 0x2029, 0x202F, 0x205F, 0x3000]

/-- The UTF-8 encodings of the white-space runes. -/
def spaceRunes : List GoString := spaceCodePoints.map fun n => utf8Char (Char.ofNat n)

/-- The width of the white-space rune that `s` starts with, if it starts with
one. -/
def leadingSpace (s : GoString) : Option Nat :=
  (spaceRunes.find? fun r => r.isPrefixOf s).map List.length

/-- The width of the white-space rune that `s` ends with, if it ends with one. -/
def trailingSpace (s : GoString) : Option Nat :=
  (spaceRunes.find? fun r => r.isSuffixOf s).map List.length

/-- `strings.TrimLeftFunc(s, unicode.IsSpace)`, with the length of `s` as fuel. -/
def trimLeft : Nat → GoString → GoString
  | 0, s => s
  | n + 1, s =>
    match leadingSpace s with
    | some w => trimLeft n (s.drop w)
    | none => s

/-- `strings.TrimRightFunc(s, unicode.IsSpace)`, with the length of `s` as fuel. -/
def trimRight : Nat → GoString → GoString
  | 0, s => s
  | n + 1, s =>
    match trailingSpace s with
    | some w => trimRight n (s.take (s.length - w))
    | none => s

/-- `strings.TrimSpace`: the string without its leading and trailing white
space, as defined by Unicode. -/
def TrimSpace (s : GoString) : GoString :=
  let t := trimLeft s.length s
  trimRight t.length t

/-- Equality of results is decidable. -/
instance instDecidableEqExcept {ε α : Type} [DecidableEq ε] [DecidableEq α] :
    DecidableEq (Except ε α)
  | .ok a, .ok b =>
    if h : a = b then isTrue (by rw [h]) else isFalse (fun h' => h (by cases h'; rfl))
  | .error a, .error b =>
    if h : a = b then isTrue (by rw [h]) else isFalse (fun h' => h (by cases h'; rfl))
  | .ok _, .error _ => isFalse (fun h => by cases h)
  | .error _, .ok _ => isFalse (fun h => by cases h)

/-- The text of the error that `parseKey` returns. -/
def keyErrorText : String := "Недопустимый ключ: длина ключа должна быть 7 байт"

/-- The function `parseKey` of `client.go`: the key, or the error. -/
def parseKey (keyStr : GoString) : Except String (List Byte) :=
  let keyStr := TrimSpace keyStr
  if keyStr.length ≠ 8 then .error keyErrorText
  else .ok keyStr

/-! ## `client.go`: sending and receiving -/

/-- The fields of `Client` that the send and receive paths read: the connection
flag and the contents of the widgets. -/
structure Client where
  connected : Bool
  username : GoString
  sendTE : GoString
  encryptCb : Bool
  keyEdit : GoString
  deriving DecidableEq, Repr

/-- What a client does to the outside: a write on the connection, an error
dialog, a line appended to the chat view. -/
inductive Effect where
  | write (bytes : GoString)
  | msgBox (text : String)
  | appendText (text : GoString)
  deriving DecidableEq, Repr

/-- The prefix of the key error dialog. -/
def keyDialogPrefix : String := "Неверный ключ шифрования: "

/-- The write of `Client.sendMessage` and what follows it: the input field is
cleared when the write succeeded (`writeOk`), and left as it is otherwise. -/
def Client.writeMessage (c : Client) (writeOk : Bool) (msg : GoString) :
    List Effect × Client :=
  ([.write (c.username ++ str ": " ++ msg)],
    if writeOk then { c with sendTE := [] } else c)

/-- The method `Client.sendMessage`: the effects, and the client afterwards.
`writeOk` tells whether the write on the connection succeeds. -/
def Client.sendMessage (C : BlockCipher) (c : Client) (writeOk : Bool) :
    Outcome (List Effect × Client) :=
  if c.connected then
    let msg := c.sendTE
    if msg ≠ [] then
      if c.encryptCb then
        match parseKey c.keyEdit with
        | .error err => .ret ([.msgBox (keyDialogPrefix ++ err)], c)
        | .ok key =>
          (desEncrypt C msg key).bind fun msg =>
          .ret (c.writeMessage writeOk msg)
      else
        .ret (c.writeMessage writeOk msg)
    else .ret ([], c)
  else .ret ([], c)

/-- The index of the first occurrence of `sep` in `s`, `strings.Index`. -/
def Index (sep : GoString) : GoString → Option Nat
  | [] => if sep.isPrefixOf [] then some 0 else none
  | b :: rest =>
    if sep.isPrefixOf (b :: rest) then some 0
    else (Index sep rest).map fun i => i + 1

/-- `strings.SplitN(s, sep, 2)` for a non-empty separator: the part before the
first occurrence of `sep` and the part after it, or `s` alone when `sep` does
not occur. -/
def SplitN2 (s sep : GoString) : List GoString :=
  match Index sep s with
  | some i => [s.take i, s.drop (i + sep.length)]
  | none => [s]

/-- The size of the read buffer of both read loops. -/
def bufSize : Nat := 2048

/-- `conn.Read(buf)` on a connection that holds the bytes `pending`: the bytes
`buf[:n]` that the call returns, at most the size of the buffer. -/
def connRead (pending : GoString) : GoString := pending.take bufSize

/-- One pass through the body of the loop of `Client.readLoop` after a read that
returned the bytes `msg`: the effects, and whether the loop goes on. -/
def Client.readLoop (C : BlockCipher) (c : Client) (msg : GoString) :
    Outcome (List Effect × Bool) :=
  if c.encryptCb then
    match parseKey c.keyEdit with
    | .error err => .ret ([.msgBox (keyDialogPrefix ++ err)], false)
    | .ok key =>
      match SplitN2 msg (str ": ") with
      | [p0, p1] =>
        (desDecrypt C p1 key).bind fun plain =>
        .ret ([.appendText (p0 ++ str ": " ++ plain ++ str "\r\n")], true)
      | _ => .ret ([.appendText (msg ++ str "\r\n")], true)
  else .ret ([.appendText (msg ++ str "\r\n")], true)

/-! ## `ser.go`: the relay server -/

/-- A connection, `net.Conn`, identified by its remote address. -/
abbrev Conn := Nat

/-- A Go slice `buf[:len]` of the read buffer that `readLoop(array)` allocated:
the slice shares the buffer, it holds no bytes of its own. -/
structure Slice where
  array : Conn
  len : Nat
  deriving DecidableEq, Repr

/-- The struct `Message` of `ser.go`; `sender` is the field `from`, the
remote address of the connection. -/
structure Message where
  sender : Conn
  payload : Slice
  deriving DecidableEq, Repr

/-- One call of `conn.Write`: the connection, the bytes, and whether the call
returned a nil error. -/
structure WriteCall where
  conn : Conn
  data : GoString
  ok : Bool
  deriving DecidableEq, Repr

/-- The state of the server: the keys of the map `connections`, the contents of
the channel `msgch` (first in, first out), the buffer `buf` of each running
`readLoop`, the connections closed so far, and the calls of `conn.Write` made so
far. -/
structure Server where
  connections : List Conn
  msgch : List Message
  bufs : Conn → List Byte
  closed : List Conn
  writes : List WriteCall

/-- The capacity of the channel, `make(chan Message, 10)`. -/
def msgchCap : Nat := 10

/-- `NewServer`: no connection, an empty channel. -/
def NewServer : Server :=
  { connections := [], msgch := [], bufs := fun _ => [], closed := [], writes := [] }

/-- `s.connections.Store(conn, struct{}{})`: a key is held once. -/
def Server.Store (s : Server) (conn : Conn) : Server :=
  if conn ∈ s.connections then s
  else { s with connections := s.connections ++ [conn] }

/-- `s.connections.Delete(conn)`. -/
def Server.Delete (s : Server) (conn : Conn) : Server :=
  { s with connections := s.connections.erase conn }

/-- One pass of `acceptLoop` for an accepted connection: it is stored, and its
`readLoop` starts with a fresh buffer, `make([]byte, 2048)`. -/
def Server.accept (s : Server) (conn : Conn) : Server :=
  let s := s.Store conn
  { s with bufs := fun c => if c = conn then List.replicate bufSize 0 else s.bufs c }

/-- The bytes that a slice holds now. -/
def Server.bytes (s : Server) (p : Slice) : List Byte := (s.bufs p.array).take p.len

/-- What `conn.Read(buf)` returns: `n` bytes written to the start of the buffer,
or an error (the peer closing the connection included). -/
inductive ReadResult where
  | data (bytes : List Byte)
  | err
  deriving DecidableEq, Repr

/-- `conn.Read(buf)` returning `data`: the bytes `buf[:n]` are overwritten, the
rest of the buffer stays. -/
def Server.readInto (s : Server) (conn : Conn) (data : List Byte) : Server :=
  let data := data.take bufSize
  { s with bufs := fun c =>
      if c = conn then data ++ (s.bufs conn).drop data.length else s.bufs c }

/-- How one pass through the loop of `readLoop` ends: the message was sent on
the channel and the loop goes on; the channel is full and the goroutine waits to
send the message; or the read failed and the function returned, its deferred
function having run. -/
inductive Pass where
  | sent (s : Server)
  | waiting (s : Server) (m : Message)
  | returned (s : Server)

/-- The deferred function of `readLoop`: `conn.Close()`, then
`s.connections.Delete(conn)`. -/
def Server.readLoopDefer (s : Server) (conn : Conn) : Server :=
  let s := { s with closed := conn :: s.closed }
  s.Delete conn

/-- One pass through the loop of `Server.readLoop` for the connection `conn`,
given what the call `conn.Read(buf)` returns. -/
def Server.readLoop (s : Server) (conn : Conn) (r : ReadResult) : Pass :=
  match r with
  | .err => .returned (s.readLoopDefer conn)
  | .data bytes =>
    let n := (bytes.take bufSize).length
    let s := s.readInto conn bytes
    let m : Message := { sender := conn, payload := { array := conn, len := n } }
    if s.msgch.length < msgchCap then .sent { s with msgch := s.msgch ++ [m] }
    else .waiting s m

/-- The server after a pass, whichever way it ended. -/
def Pass.server : Pass → Server
  | .sent s => s
  | .waiting s _ => s
  | .returned s => s

/-- The visit of one key by the function that `Broadcast` hands to `Range`:
the write, and the deletion of the connection when the write failed. -/
def Server.visit (writeOk : Conn → Bool) (msg : GoString) (s : Server) (conn : Conn) :
    Server :=
  let s := { s with writes := s.writes ++ [{ conn := conn, data := msg, ok := writeOk conn }] }
  if writeOk conn then s else s.Delete conn

/-- The method `Server.Broadcast`: `Range` visits every key that the map holds
when the call starts, each once. `writeOk` tells on which connections a write
succeeds. -/
def Server.Broadcast (s : Server) (writeOk : Conn → Bool) (msg : GoString) : Server :=
  s.connections.foldl (Server.visit writeOk msg) s

/-- One pass of the broadcaster loop of `main`: the next message is received
from the channel and its payload, the bytes that its slice holds at that
moment, is broadcast. `none` when the channel is empty. -/
def Server.deliver (s : Server) (writeOk : Conn → Bool) : Option Server :=
  match s.msgch with
  | [] => none
  | m :: rest => some (({ s with msgch := rest }).Broadcast writeOk (s.bytes m.payload))

/-! ## Scenarios -/

/-- A server that accepted two connections, 1 and 2. -/
def twoClients : Server := (NewServer.accept 1).accept 2

/-- A server that accepted connection 1, after the `readLoop` of that
connection read "hello" and sent its message on the channel. -/
def firstRead : Server := ((NewServer.accept 1).readLoop 1 (.data (str "hello"))).server

/-- The server `firstRead` after the same `readLoop` read "bye" next and sent
that message too, the broadcaster having received nothing yet. -/
def secondRead : Server := (firstRead.readLoop 1 (.data (str "bye"))).server

/-! ## Lemmas: hexadecimal encoding and exclusive or -/

theorem fromHexChar_hextable (n : Nat) (h : n < 16) : fromHexChar (hextable n) = some n := by
  interval_cases n <;> decide

theorem byte_val (b : Byte) : byte (b.val / 16 * 16 + b.val % 16) = b := by
  apply Fin.ext
  simp only [byte]
  have := b.isLt
  omega

theorem DecodeString_EncodeToString (l : List Byte) :
    DecodeString (EncodeToString l) = some l := by
  induction l with
  | nil => rfl
  | cons v rest ih =>
    have h1 : v.val / 16 < 16 := by have := v.isLt; omega
    have h2 : v.val % 16 < 16 := Nat.mod_lt _ (by decide)
    simp only [EncodeToString, DecodeString, fromHexChar_hextable _ h1,
      fromHexChar_hextable _ h2, ih, byte_val]

theorem EncodeToString_length (l : List Byte) : (EncodeToString l).length = 2 * l.length := by
  induction l with
  | nil => rfl
  | cons v rest ih => simp only [EncodeToString, List.length_cons, ih]; omega

theorem xorByte_cancel (a b : Byte) : xorByte (xorByte a b) b = a := by
  apply Fin.ext
  simp only [xorByte, Nat.xor_assoc, Nat.xor_self, Nat.xor_zero]

theorem xorBytes_cancel : ∀ (a b : List Byte), a.length = b.length →
    xorBytes (xorBytes a b) b = a
  | [], [], _ => rfl
  | x :: a, y :: b, h => by
    have h' : a.length = b.length := by simpa using h
    simp only [xorBytes, List.zipWith_cons_cons, xorByte_cancel, List.cons.injEq, true_and]
    exact xorBytes_cancel a b h'
  | [], _ :: _, h => by simp at h
  | _ :: _, [], h => by simp at h

theorem xorBytes_length (a b : List Byte) (h : a.length = b.length) :
    (xorBytes a b).length = a.length := by
  simp [xorBytes, h]

/-! ## Lemmas: blocks, CBC, padding -/

theorem blocks_append (n : Nat) (c rest : List Byte) (h : c.length = BlockSize) :
    blocks (n + 1) (c ++ rest) = c :: blocks n rest := by
  simp only [blocks, ← h, List.take_left, List.drop_left]

theorem cbcEncryptLoop_length (C : BlockCipher) (key : List Byte) :
    ∀ (bs : List (List Byte)) (iv : List Byte), iv.length = BlockSize →
      (∀ b ∈ bs, b.length = BlockSize) →
      (cbcEncryptLoop C key iv bs).length = BlockSize * bs.length
  | [], _, _, _ => rfl
  | b :: bs, iv, hiv, hbs => by
    have hb : b.length = BlockSize := hbs b (List.mem_cons_self _ _)
    have hx : (xorBytes b iv).length = BlockSize := by
      rw [xorBytes_length b iv (hb.trans hiv.symm), hb]
    have hc := C.Encrypt_length key _ hx
    simp only [cbcEncryptLoop, List.length_append, List.length_cons, hc]
    rw [cbcEncryptLoop_length C key bs _ hc (fun x hx => hbs x (List.mem_cons_of_mem _ hx))]
    rw [Nat.mul_succ, Nat.add_comm]

theorem cbcDecryptLoop_cbcEncryptLoop (C : BlockCipher) (key : List Byte)
    (hinv : C.Inverts key) :
    ∀ (bs : List (List Byte)) (iv : List Byte), iv.length = BlockSize →
      (∀ b ∈ bs, b.length = BlockSize) →
      cbcDecryptLoop C key iv (blocks bs.length (cbcEncryptLoop C key iv bs)) = bs.flatten
  | [], _, _, _ => rfl
  | b :: bs, iv, hiv, hbs => by
    have hb : b.length = BlockSize := hbs b (List.mem_cons_self _ _)
    have hx : (xorBytes b iv).length = BlockSize := by
      rw [xorBytes_length b iv (hb.trans hiv.symm), hb]
    have hc := C.Encrypt_length key _ hx
    simp only [cbcEncryptLoop, List.length_cons]
    rw [blocks_append _ _ _ hc]
    simp only [cbcDecryptLoop, hinv _ hx, xorBytes_cancel b iv (hb.trans hiv.symm),
      List.flatten_cons]
    rw [cbcDecryptLoop_cbcEncryptLoop C key hinv bs _ hc
      (fun x hx => hbs x (List.mem_cons_of_mem _ hx))]

theorem blocks_length (n : Nat) (src : List Byte) : (blocks n src).length = n := by
  induction n generalizing src with
  | zero => rfl
  | succ n ih => simp only [blocks, List.length_cons, ih]

theorem blocks_flatten : ∀ (n : Nat) (src : List Byte), src.length = BlockSize * n →
    (blocks n src).flatten = src
  | 0, src, h => by
    have : src = [] := List.length_eq_zero.mp (by simpa using h)
    simp [blocks, this]
  | n + 1, src, h => by
    have hd : (src.drop BlockSize).length = BlockSize * n := by
      rw [List.length_drop, h, Nat.mul_succ]; omega
    simp only [blocks, List.flatten_cons, blocks_flatten n _ hd, List.take_append_drop]

theorem blocks_mem_length : ∀ (n : Nat) (src : List Byte), src.length = BlockSize * n →
    ∀ b ∈ blocks n src, b.length = BlockSize
  | 0, _, _, b, hb => by simp [blocks] at hb
  | n + 1, src, h, b, hb => by
    have hd : (src.drop BlockSize).length = BlockSize * n := by
      rw [List.length_drop, h, Nat.mul_succ]; omega
    simp only [blocks, List.mem_cons] at hb
    rcases hb with rfl | hb
    · rw [List.length_take, h, Nat.mul_succ]; omega
    · exact blocks_mem_length n _ hd b hb

theorem padding_length (src : List Byte) :
    (padding src BlockSize).length = src.length + (8 - src.length % 8) := by
  simp [padding, BlockSize]

theorem padding_length_mod (src : List Byte) : (padding src BlockSize).length % BlockSize = 0 := by
  rw [padding_length]; simp only [BlockSize]; omega

theorem unpadding_padding (src : List Byte) : unpadding (padding src BlockSize) = .ret src := by
  have hk : 0 < 8 - src.length % 8 := by omega
  have hk8 : 8 - src.length % 8 ≤ 8 := by omega
  obtain ⟨k, hk'⟩ : ∃ k, 8 - src.length % 8 = k + 1 := ⟨8 - src.length % 8 - 1, by omega⟩
  have hlast : (padding src BlockSize).getLast? = some (byte (k + 1)) := by
    simp only [padding, BlockSize, hk', List.replicate_succ']
    rw [← List.append_assoc, List.getLast?_append]
    simp
  have hval : (byte (k + 1)).val = k + 1 := by
    simp only [byte]; omega
  have hlen : (padding src BlockSize).length = src.length + (k + 1) := by
    rw [padding_length, hk']
  simp only [unpadding, hlast, hval, hlen]
  rw [if_neg (by omega)]
  congr 1
  simp only [padding, BlockSize]
  rw [show src.length + (k + 1) - (k + 1) = src.length by omega, List.take_left]

/-! ## Lemmas: DES -/

theorem permute_length (table : List Nat) (bits : List Bool) :
    (permute table bits).length = table.length := by
  simp [permute]

theorem permute_getD (table : List Nat) (bits : List Bool) (j : Nat) (hj : j < table.length) :
    (permute table bits).getD j false = bits.getD (table.getD j 0 - 1) false := by
  simp [permute, List.getD_eq_getElem?_getD, List.getElem?_map, List.getElem?_eq_getElem hj]

theorem permute_permute (t1 t2 : List Nat) (bits : List Bool)
    (hlen : t2.length = bits.length)
    (hcomp : ∀ i, i < t2.length → t2.getD i 0 - 1 < t1.length ∧ t1.getD (t2.getD i 0 - 1) 0 - 1 = i) :
    permute t2 (permute t1 bits) = bits := by
  apply List.ext_getElem
  · rw [permute_length, hlen]
  · intro i h1 h2
    rw [permute_length] at h1
    have h := permute_getD t2 (permute t1 bits) i h1
    rw [permute_getD t1 bits _ (hcomp i h1).1, (hcomp i h1).2] at h
    rw [List.getD_eq_getElem _ _ (by rw [permute_length]; exact h1), List.getD_eq_getElem _ _ h2] at h
    exact h

theorem permute_FP_IP (bits : List Bool) (h : bits.length = 64) :
    permute tableFP (permute tableIP bits) = bits :=
  permute_permute tableIP tableFP bits h.symm (by decide)

theorem permute_IP_FP (bits : List Bool) (h : bits.length = 64) :
    permute tableIP (permute tableFP bits) = bits :=
  permute_permute tableFP tableIP bits h.symm (by decide)

theorem byte_natOfBits_bitsOfByte : ∀ b : Byte, byte (natOfBits (bitsOfByte b)) = b := by
  decide!

theorem bitsOfByte_byte_natOfBits : ∀ b7 b6 b5 b4 b3 b2 b1 b0 : Bool,
    bitsOfByte (byte (natOfBits [b7, b6, b5, b4, b3, b2, b1, b0]))
      = [b7, b6, b5, b4, b3, b2, b1, b0] := by
  decide!

theorem bitsOfByte_length (b : Byte) : (bitsOfByte b).length = 8 := rfl

theorem toBits_length (bs : List Byte) : (toBits bs).length = 8 * bs.length := by
  induction bs with
  | nil => rfl
  | cons b rest ih =>
    simp only [toBits, List.length_append, bitsOfByte_length, List.length_cons, ih]; omega

theorem toBytes_toBits (bs : List Byte) : toBytes bs.length (toBits bs) = bs := by
  induction bs with
  | nil => rfl
  | cons b rest ih =>
    have h8 : (bitsOfByte b).length = 8 := rfl
    simp only [toBits, List.length_cons, toBytes]
    rw [← h8, List.take_left, List.drop_left, byte_natOfBits_bitsOfByte, ih]

theorem toBits_toBytes : ∀ (n : Nat) (bits : List Bool), bits.length = 8 * n →
    toBits (toBytes n bits) = bits
  | 0, bits, h => by
    have : bits = [] := List.length_eq_zero.mp (by simpa using h)
    simp [toBytes, toBits, this]
  | n + 1, bits, h => by
    have hd : (bits.drop 8).length = 8 * n := by rw [List.length_drop, h]; omega
    have ht : (bits.take 8).length = 8 := by rw [List.length_take, h]; omega
    simp only [toBytes, toBits, toBits_toBytes n _ hd]
    match hte : bits.take 8, ht with
    | [b7, b6, b5, b4, b3, b2, b1, b0], _ =>
      rw [bitsOfByte_byte_natOfBits, ← hte, List.take_append_drop]

theorem xorBits_cancel : ∀ (a b : List Bool), a.length = b.length →
    xorBits (xorBits a b) b = a
  | [], [], _ => rfl
  | x :: a, y :: b, h => by
    have h' : a.length = b.length := by simpa using h
    have hxy : xor (xor x y) y = x := by cases x <;> cases y <;> rfl
    simp only [xorBits, List.zipWith_cons_cons, hxy, List.cons.injEq, true_and]
    exact xorBits_cancel a b h'
  | [], _ :: _, h => by simp at h
  | _ :: _, [], h => by simp at h

theorem feistel_length (r subkey : List Bool) : (feistel r subkey).length = 32 := by
  rw [feistel, permute_length]; rfl

theorem round_halves (lr : List Bool × List Bool) (k : List Bool) (h : Halves lr) :
    Halves (round lr k) := by
  refine ⟨h.2, ?_⟩
  show (xorBits lr.1 (feistel lr.2 k)).length = 32
  rw [xorBits, List.length_zipWith, h.1, feistel_length]; rfl

theorem foldl_round_halves (ks : List (List Bool)) :
    ∀ lr : List Bool × List Bool, Halves lr → Halves (ks.foldl round lr) := by
  induction ks with
  | nil => intro lr h; exact h
  | cons k ks ih => intro lr h; exact ih _ (round_halves lr k h)

theorem round_swap_round (lr : List Bool × List Bool) (k : List Bool) (h : Halves lr) :
    round (Prod.swap (round lr k)) k = Prod.swap lr := by
  show (lr.2, xorBits (xorBits lr.1 (feistel lr.2 k)) (feistel lr.2 k)) = (lr.2, lr.1)
  rw [xorBits_cancel _ _ (by rw [h.1, feistel_length])]

theorem foldl_round_reverse (ks : List (List Bool)) :
    ∀ lr : List Bool × List Bool, Halves lr →
      ks.reverse.foldl round (Prod.swap (ks.foldl round lr)) = Prod.swap lr := by
  induction ks with
  | nil => intro lr _; rfl
  | cons k ks ih =>
    intro lr h
    rw [List.reverse_cons, List.foldl_append, List.foldl_cons (l := ks), ih _ (round_halves lr k h)]
    exact round_swap_round lr k h

theorem cryptBlock_eq (ks : List (List Bool)) (block : List Byte) :
    cryptBlock ks block = toBytes 8 (permute tableFP
      ((ks.foldl round ((permute tableIP (toBits block)).take 32,
          (permute tableIP (toBits block)).drop 32)).2 ++
       (ks.foldl round ((permute tableIP (toBits block)).take 32,
          (permute tableIP (toBits block)).drop 32)).1)) := rfl

theorem tableIP_length : tableIP.length = 64 := rfl

theorem tableFP_length : tableFP.length = 64 := rfl

theorem cryptBlock_reverse (ks : List (List Bool)) (b : List Byte) (hb : b.length = 8) :
    cryptBlock ks.reverse (cryptBlock ks b) = b := by
  have hbits : (toBits b).length = 64 := by rw [toBits_length, hb]
  have hip : (permute tableIP (toBits b)).length = 64 := by
    rw [permute_length, tableIP_length]
  have h0 : Halves ((permute tableIP (toBits b)).take 32,
      (permute tableIP (toBits b)).drop 32) := by
    constructor
    · show ((permute tableIP (toBits b)).take 32).length = 32
      rw [List.length_take, hip]; rfl
    · show ((permute tableIP (toBits b)).drop 32).length = 32
      rw [List.length_drop, hip]
  have h1 := foldl_round_halves ks _ h0
  have hrev := foldl_round_reverse ks _ h0
  rw [cryptBlock_eq ks b]
  generalize ks.foldl round
    ((permute tableIP (toBits b)).take 32, (permute tableIP (toBits b)).drop 32) = lr at h1 hrev ⊢
  obtain ⟨l, r⟩ := lr
  have hl : l.length = 32 := h1.1
  have hr : r.length = 32 := h1.2
  have hcat : (r ++ l).length = 64 := by rw [List.length_append, hl, hr]
  have hfp : (permute tableFP (r ++ l)).length = 8 * 8 := by
    rw [permute_length, tableFP_length]
  have hrev' : ks.reverse.foldl round (r, l) =
      ((permute tableIP (toBits b)).drop 32, (permute tableIP (toBits b)).take 32) := hrev
  rw [cryptBlock_eq, toBits_toBytes 8 _ hfp, permute_IP_FP _ hcat]
  have ht : (r ++ l).take 32 = r := by rw [← hr, List.take_left]
  have hd : (r ++ l).drop 32 = l := by rw [← hr, List.drop_left]
  rw [ht, hd, hrev']
  show toBytes 8 (permute tableFP
    ((permute tableIP (toBits b)).take 32 ++ (permute tableIP (toBits b)).drop 32)) = b
  rw [List.take_append_drop, permute_FP_IP _ hbits, ← hb, toBytes_toBits]

theorem DES_Inverts (key : List Byte) : DES.Inverts key := by
  intro b hb
  exact cryptBlock_reverse (subkeys key) b hb

/-! ## Lemmas: the cipher envelope -/

theorem cbcEncrypt_padding (C : BlockCipher) (P K : List Byte) (hK : K.length = 8) :
    cbcEncrypt C K K (padding P BlockSize) = .ret (cbcEncryptLoop C K K
      (blocks ((padding P BlockSize).length / BlockSize) (padding P BlockSize))) := by
  have hK' : K.length = BlockSize := hK
  simp only [cbcEncrypt, hK', padding_length_mod, ne_eq, not_true_eq_false, if_false]

theorem padding_length_blocks (P : List Byte) :
    (padding P BlockSize).length =
      BlockSize * ((padding P BlockSize).length / BlockSize) :=
  (Nat.mul_div_cancel' (Nat.dvd_of_mod_eq_zero (padding_length_mod P))).symm

theorem cbcEncryptLoop_padding_length (C : BlockCipher) (P K : List Byte) (hK : K.length = 8) :
    (cbcEncryptLoop C K K
      (blocks ((padding P BlockSize).length / BlockSize) (padding P BlockSize))).length
      = (padding P BlockSize).length := by
  have hlen := padding_length_blocks P
  rw [cbcEncryptLoop_length C K _ K hK (blocks_mem_length _ _ hlen), blocks_length, ← hlen]

theorem desEncrypt_eq (C : BlockCipher) (P K : List Byte) (hK : K.length = 8) :
    desEncrypt C P K = .ret (EncodeToString (cbcEncryptLoop C K K
      (blocks ((padding P BlockSize).length / BlockSize) (padding P BlockSize)))) := by
  simp only [desEncrypt, hK, ne_eq, not_true_eq_false, if_false,
    cbcEncrypt_padding C P K hK, Outcome.bind]

theorem desDecrypt_encoded (C : BlockCipher) (P K : List Byte)
    (hK : K.length = 8) (hinv : C.Inverts K) :
    desDecrypt C (EncodeToString (cbcEncryptLoop C K K
      (blocks ((padding P BlockSize).length / BlockSize) (padding P BlockSize)))) K
      = .ret P := by
  have hK' : K.length = BlockSize := hK
  have hlen := padding_length_blocks P
  have hmem := blocks_mem_length _ _ hlen
  have hclen := cbcEncryptLoop_padding_length C P K hK
  have hrt := cbcDecryptLoop_cbcEncryptLoop C K hinv
    (blocks ((padding P BlockSize).length / BlockSize) (padding P BlockSize)) K hK' hmem
  rw [blocks_length, blocks_flatten _ _ hlen] at hrt
  simp only [desDecrypt, hK, ne_eq, not_true_eq_false, if_false, Outcome.bind,
    DecodeString_EncodeToString, cbcDecrypt, hclen, padding_length_mod, hrt]
  rw [if_neg (by simp [BlockSize])]
  simp only [unpadding_padding]

/-! ## Theorems: the cipher envelope -/

/-- C1. Cipher round trip: for every plaintext `P` (the empty one and those of
a length that is a multiple of 8 included) and every 8-byte key `K` under which
the block cipher's decryption inverts its encryption, `desEncrypt P K` returns a
hexadecimal string and `desDecrypt` of that string under `K` returns exactly
`P`. -/
theorem desDecrypt_desEncrypt (C : BlockCipher) (P : GoString) (K : List Byte)
    (hK : K.length = 8) (hinv : C.Inverts K) :
    (desEncrypt C P K).bind (fun h => desDecrypt C h K) = .ret P := by
  rw [desEncrypt_eq C P K hK]
  exact desDecrypt_encoded C P K hK hinv

/-- The round trip of C1 on DES itself, for the message "hi" under the key
"01234567". -/
theorem desDecrypt_desEncrypt_witness :
    (str "01234567").length = 8 ∧ DES.Inverts (str "01234567") ∧
    (desEncrypt DES (str "hi") (str "01234567")).bind
      (fun h => desDecrypt DES h (str "01234567")) = .ret (str "hi") :=
  ⟨by decide, DES_Inverts _, desDecrypt_desEncrypt DES _ _ (by decide) (DES_Inverts _)⟩

/-- C8. Padding is always added: for every plaintext `P` and 8-byte key `K`,
`desEncrypt` returns the hexadecimal encoding of a ciphertext `dst` whose length
is `len(P) + (8 - len(P) mod 8)`, a multiple of 8 strictly greater than
`len(P)`, equal to `len(P) + 8` when `len(P)` is a multiple of 8 (0 included),
and the returned string has twice that many characters. -/
theorem desEncrypt_padded_length (C : BlockCipher) (P : GoString) (K : List Byte)
    (hK : K.length = 8) :
    ∃ dst : List Byte,
      cbcEncrypt C K K (padding P BlockSize) = .ret dst ∧
      desEncrypt C P K = .ret (EncodeToString dst) ∧
      dst.length = P.length + (8 - P.length % 8) ∧
      dst.length % 8 = 0 ∧
      P.length < dst.length ∧
      (P.length % 8 = 0 → dst.length = P.length + 8) ∧
      (EncodeToString dst).length = 2 * (P.length + (8 - P.length % 8)) := by
  refine ⟨_, cbcEncrypt_padding C P K hK, desEncrypt_eq C P K hK, ?_, ?_, ?_, ?_, ?_⟩
  · rw [cbcEncryptLoop_padding_length C P K hK, padding_length]
  · rw [cbcEncryptLoop_padding_length C P K hK, padding_length]; omega
  · rw [cbcEncryptLoop_padding_length C P K hK, padding_length]; omega
  · intro h; rw [cbcEncryptLoop_padding_length C P K hK, padding_length, h]
  · rw [EncodeToString_length, cbcEncryptLoop_padding_length C P K hK, padding_length]

/-- The padding of C8 on DES: the 8-byte message "12345678" under the key
"01234567" gives 16 bytes of ciphertext, 32 hexadecimal characters. -/
theorem desEncrypt_padded_length_witness :
    (str "01234567").length = 8 ∧
    ∃ dst : List Byte,
      cbcEncrypt DES (str "01234567") (str "01234567") (padding (str "12345678") BlockSize)
        = .ret dst ∧
      desEncrypt DES (str "12345678") (str "01234567") = .ret (EncodeToString dst) ∧
      dst.length = (str "12345678").length + (8 - (str "12345678").length % 8) ∧
      dst.length % 8 = 0 ∧
      (str "12345678").length < dst.length ∧
      ((str "12345678").length % 8 = 0 → dst.length = (str "12345678").length + 8) ∧
      (EncodeToString dst).length
        = 2 * ((str "12345678").length + (8 - (str "12345678").length % 8)) :=
  ⟨by decide, desEncrypt_padded_length DES (str "12345678") (str "01234567") (by decide)⟩


theorem cbcDecryptLoop_length (C : BlockCipher) (key : List Byte) :
    ∀ (cs : List (List Byte)) (iv : List Byte), iv.length = BlockSize →
      (∀ c ∈ cs, c.length = BlockSize) →
      (cbcDecryptLoop C key iv cs).length = BlockSize * cs.length
  | [], _, _, _ => rfl
  | c :: cs, iv, hiv, hcs => by
    have hc : c.length = BlockSize := hcs c (List.mem_cons_self _ _)
    have hd := C.Decrypt_length key c hc
    have hx : (xorBytes (C.Decrypt key c) iv).length = BlockSize := by
      rw [xorBytes_length _ iv (hd.trans hiv.symm), hd]
    simp only [cbcDecryptLoop, List.length_append, List.length_cons, hx]
    rw [cbcDecryptLoop_length C key cs _ hc (fun x hx => hcs x (List.mem_cons_of_mem _ hx))]
    rw [Nat.mul_succ, Nat.add_comm]

theorem cbcDecrypt_blocks (C : BlockCipher) (K src : List Byte) (hK : K.length = 8)
    (hsrc : src.length % 8 = 0) :
    cbcDecrypt C K K src = .ret (cbcDecryptLoop C K K (blocks (src.length / BlockSize) src)) ∧
    (cbcDecryptLoop C K K (blocks (src.length / BlockSize) src)).length = src.length := by
  have hK' : K.length = BlockSize := hK
  have hsrc' : src.length % BlockSize = 0 := hsrc
  have hlen : src.length = BlockSize * (src.length / BlockSize) :=
    (Nat.mul_div_cancel' (Nat.dvd_of_mod_eq_zero hsrc')).symm
  constructor
  · simp only [cbcDecrypt, hK', hsrc', ne_eq, not_true_eq_false, if_false]
  · rw [cbcDecryptLoop_length C K _ K hK' (blocks_mem_length _ _ hlen), blocks_length, ← hlen]

theorem desDecrypt_invalid_hex (C : BlockCipher) (B : GoString) (K : List Byte)
    (hK : K.length = 8) (hB : DecodeString B = none) : desDecrypt C B K = .fatal := by
  simp only [desDecrypt, hK, ne_eq, not_true_eq_false, if_false, hB]

theorem desDecrypt_unpadded (C : BlockCipher) (B : GoString) (K src dst : List Byte)
    (last : Byte) (hK : K.length = 8) (hB : DecodeString B = some src)
    (hdst : cbcDecrypt C K K src = .ret dst) (hlast : dst.getLast? = some last)
    (hpad : last.val ≤ dst.length) :
    desDecrypt C B K = .ret (dst.take (dst.length - last.val)) := by
  simp only [desDecrypt, hK, ne_eq, not_true_eq_false, if_false, hB, hdst, Outcome.bind,
    unpadding, hlast]
  rw [if_neg (by omega)]

/-- C2, as amended. For every string `B` and every 8-byte key `K`: when `B` is
not valid hexadecimal, `desDecrypt` does not return, it calls `log.Fatal`, which
ends the process; when `B` is the hexadecimal encoding of a non-empty whole
number of 8-byte blocks, the CBC decryption gives as many bytes `dst`, and if
their last byte, the pad length, does not exceed their number then `desDecrypt`
returns `dst` without that many trailing bytes. -/
theorem desDecrypt_outcome (C : BlockCipher) (B : GoString) (K : List Byte)
    (hK : K.length = 8) :
    (DecodeString B = none → desDecrypt C B K = .fatal) ∧
    (∀ src, DecodeString B = some src → src ≠ [] → src.length % 8 = 0 →
      ∃ dst last, cbcDecrypt C K K src = .ret dst ∧ dst.length = src.length ∧
        dst.getLast? = some last ∧
        (last.val ≤ dst.length →
          desDecrypt C B K = .ret (dst.take (dst.length - last.val)))) := by
  refine ⟨desDecrypt_invalid_hex C B K hK, ?_⟩
  intro src hB hne hmod
  obtain ⟨hdst, hlen⟩ := cbcDecrypt_blocks C K src hK hmod
  have hne' : cbcDecryptLoop C K K (blocks (src.length / BlockSize) src) ≠ [] := by
    intro h
    rw [h] at hlen
    exact hne (List.length_eq_zero.mp hlen.symm)
  refine ⟨_, (cbcDecryptLoop C K K (blocks (src.length / BlockSize) src)).getLast hne',
    hdst, hlen, List.getLast?_eq_getLast _ hne', ?_⟩
  intro hpad
  exact desDecrypt_unpadded C B K src _ _ hK hB hdst (List.getLast?_eq_getLast _ hne') hpad

/-- A body that is not hexadecimal ends the process: the claim C2 fails on the
string "zz" under the key "01234567". -/
theorem desDecrypt_not_hex_fatal :
    desDecrypt DES (str "zz") (str "01234567") = .fatal := by
  decide

/-- An empty body makes `desDecrypt` panic, in `unpadding`. -/
theorem desDecrypt_empty_panic : desDecrypt DES (str "") (str "01234567") = .panic := by
  decide

/-- A body that decodes to fewer bytes than a block makes `desDecrypt` panic, in
`CryptBlocks`. -/
theorem desDecrypt_short_panic : desDecrypt DES (str "00ff") (str "01234567") = .panic := by
  decide

/-- A body whose last decrypted byte exceeds the number of decrypted bytes makes
`desDecrypt` panic, in `unpadding`. -/
theorem desDecrypt_pad_panic :
    desDecrypt DES (str "0000000000000000") (str "01234567") = .panic := by
  decide!


/-- The amended C2 on DES under the key "01234567": the body "hello" is not
hexadecimal and ends the process, the body "71ab51dab4c7b7cb" decrypts to
"hi". -/
theorem desDecrypt_outcome_witness :
    (str "01234567").length = 8 ∧
    desDecrypt DES (str "hello") (str "01234567") = .fatal ∧
    desDecrypt DES (str "71ab51dab4c7b7cb") (str "01234567") = .ret (str "hi") := by
  refine ⟨by decide, (desDecrypt_outcome DES _ _ (by decide)).1 (by decide), ?_⟩
  obtain ⟨dst, last, hdst, -, hlast, h⟩ :=
    (desDecrypt_outcome DES (str "71ab51dab4c7b7cb") (str "01234567") (by decide)).2
      [0x71, 0xab, 0x51, 0xda, 0xb4, 0xc7, 0xb7, 0xcb] (by decide) (by decide) (by decide)
  have hd : cbcDecrypt DES (str "01234567") (str "01234567")
      [0x71, 0xab, 0x51, 0xda, 0xb4, 0xc7, 0xb7, 0xcb] = .ret [104, 105, 6, 6, 6, 6, 6, 6] := by
    decide!
  rw [hd] at hdst
  have hdst' := Outcome.ret.inj hdst
  subst hdst'
  have hl : List.getLast? ([104, 105, 6, 6, 6, 6, 6, 6] : List Byte) = some 6 := rfl
  rw [hl] at hlast
  have hlast' := Option.some.inj hlast
  subst hlast'
  exact h (by decide)


/-! ## Theorems: key parsing -/

theorem parseKey_ok_iff (s : GoString) (k : List Byte) :
    parseKey s = .ok k ↔ (TrimSpace s).length = 8 ∧ k = TrimSpace s := by
  unfold parseKey
  by_cases h : (TrimSpace s).length = 8
  · simp only [h, ne_eq, not_true_eq_false, if_false, Except.ok.injEq, true_and]
    exact eq_comm
  · simp only [h, ne_eq, not_false_eq_true, if_true, false_and, iff_false]
    intro h'
    cases h'

theorem parseKey_ok_length (s : GoString) (k : List Byte) (h : parseKey s = .ok k) :
    k.length = 8 := by
  obtain ⟨h8, rfl⟩ := (parseKey_ok_iff s k).mp h
  exact h8

/-- C3. Key validation: for every input `s`, `parseKey s` succeeds if and only
if `s` with its leading and trailing white space trimmed is exactly 8 bytes long
(bytes, not characters), the key returned is then exactly those 8 bytes, and
every other input is rejected with an error and no key. -/
theorem parseKey_spec (s : GoString) :
    ((∃ k, parseKey s = .ok k) ↔ (TrimSpace s).length = 8) ∧
    (∀ k, parseKey s = .ok k → k = TrimSpace s ∧ k.length = 8) ∧
    ((TrimSpace s).length ≠ 8 → ∃ e, parseKey s = .error e) := by
  refine ⟨Iff.intro ?_ ?_, ?_, ?_⟩
  · rintro ⟨k, hk⟩
    exact ((parseKey_ok_iff s k).mp hk).1
  · intro h
    exact ⟨TrimSpace s, (parseKey_ok_iff s _).mpr ⟨h, rfl⟩⟩
  · intro k hk
    exact ⟨((parseKey_ok_iff s k).mp hk).2, parseKey_ok_length s k hk⟩
  · intro h
    exact ⟨keyErrorText, by simp only [parseKey, ne_eq, h, not_false_eq_true, if_true]⟩

/-- White space around the key is trimmed, the Unicode spaces included (here a
space, a tab and a no-break space before the key, an ideographic
space and a line end after it). -/
theorem parseKey_trims :
    parseKey (str " \t\u00a001234567\u3000\r\n") = .ok (str "01234567") := by
  decide

/-- The length is counted in bytes: four Cyrillic letters are 8 bytes and are
accepted, eight Cyrillic letters are 16 bytes and are rejected. -/
theorem parseKey_counts_bytes :
    parseKey (str "ключ") = .ok (str "ключ") ∧
    parseKey (str "ключключ") = .error keyErrorText := by
  decide

/-- White space inside the key is kept and counted. -/
theorem parseKey_inner_space : parseKey (str "0123 567") = .ok (str "0123 567") := by
  decide

/-- C10. The text of the error that `parseKey` returns for a rejected input
says that the key must be 7 bytes long, while the check rejects every key
that is not 8 bytes long: the input "1234567", which is 7 bytes long, is
rejected with that very text. -/
theorem parseKey_error_text :
    parseKey (str "1234567") = .error "Недопустимый ключ: длина ключа должна быть 7 байт" ∧
    ∀ s e, parseKey s = .error e →
      e = "Недопустимый ключ: длина ключа должна быть 7 байт" ∧ (TrimSpace s).length ≠ 8 := by
  refine ⟨by decide, ?_⟩
  intro s e h
  unfold parseKey at h
  by_cases h8 : (TrimSpace s).length = 8
  · simp only [h8, ne_eq, not_true_eq_false, if_false] at h
    cases h
  · simp only [h8, ne_eq, not_false_eq_true, if_true, Except.error.injEq] at h
    exact ⟨h.symm, h8⟩


/-! ## Theorems: the envelope from sender to receiver -/

theorem Index_cons (sep : GoString) (b : Byte) (rest : GoString) :
    Index sep (b :: rest) =
      if sep.isPrefixOf (b :: rest) then some 0 else (Index sep rest).map fun i => i + 1 := rfl

theorem Index_cons_none (sep : GoString) (b : Byte) (rest : GoString)
    (h : Index sep (b :: rest) = none) :
    sep.isPrefixOf (b :: rest) = false ∧ Index sep rest = none := by
  rw [Index_cons] at h
  cases hp : sep.isPrefixOf (b :: rest) with
  | true => rw [hp] at h; simp at h
  | false =>
    rw [hp] at h
    refine ⟨rfl, ?_⟩
    cases hi : Index sep rest with
    | none => rfl
    | some i => rw [hi] at h; simp at h

theorem isPrefixOf_two_cons_cons (x y b c : Byte) (t : GoString) :
    List.isPrefixOf [x, y] (b :: c :: t) = (x == b && y == c) := by
  simp only [List.isPrefixOf, Bool.and_true]

theorem Index_two_append (x y : Byte) (hxy : x ≠ y) (hex : GoString) :
    ∀ U : GoString, Index [x, y] U = none →
      Index [x, y] (U ++ [x, y] ++ hex) = some U.length
  | [], _ => by
    show Index [x, y] (x :: y :: hex) = some 0
    rw [Index_cons, isPrefixOf_two_cons_cons]
    simp
  | [b], h => by
    have hb := (Index_cons_none _ _ _ h).1
    show Index [x, y] (b :: x :: y :: hex) = some 1
    have hyx : (y == x) = false := by simpa using fun h' : y = x => hxy h'.symm
    rw [Index_cons, isPrefixOf_two_cons_cons, hyx, Bool.and_false]
    rw [Index_cons, isPrefixOf_two_cons_cons]
    simp
  | b :: c :: U, h => by
    obtain ⟨hb, hrest⟩ := Index_cons_none _ _ _ h
    have ih := Index_two_append x y hxy hex (c :: U) hrest
    rw [isPrefixOf_two_cons_cons] at hb
    show Index [x, y] (b :: c :: (U ++ [x, y] ++ hex)) = some ((c :: U).length + 1)
    rw [Index_cons, isPrefixOf_two_cons_cons, hb]
    have ih' : Index [x, y] (c :: (U ++ [x, y] ++ hex)) = some (c :: U).length := ih
    rw [ih']
    rfl

theorem str_sep : str ": " = [58, 32] := by decide

theorem SplitN2_envelope (U hex : GoString) (hU : Index (str ": ") U = none) :
    SplitN2 (U ++ str ": " ++ hex) (str ": ") = [U, hex] := by
  rw [str_sep] at hU ⊢
  have hidx := Index_two_append 58 32 (by decide) hex U hU
  simp only [SplitN2, hidx]
  have h1 : (U ++ [58, 32] ++ hex).take U.length = U := by
    rw [List.append_assoc, List.take_left]
  have h2 : (U ++ [58, 32] ++ hex).drop (U.length + ([58, 32] : GoString).length) = hex := by
    have : U.length + ([58, 32] : GoString).length = (U ++ [58, 32]).length := by
      rw [List.length_append]
    rw [this, List.drop_left]
  rw [h1, h2]


theorem connRead_fits (wire : GoString) (h : wire.length ≤ bufSize) : connRead wire = wire :=
  List.take_of_length_le h

/-- C7, as amended. For every username `U` that does not contain the separator
": ", every non-empty message `P` and every key text that `parseKey` accepts as
the key `K`, under which the block cipher's decryption inverts its encryption:
a connected sender in encrypted mode writes `U + ": " + desEncrypt(P, K)`, and
when those bytes fit in one 2048-byte read, a receiver in encrypted mode with
the same key that reads them appends exactly `U + ": " + P` and a line end to
its chat view, and its loop goes on. -/
theorem envelope_end_to_end (C : BlockCipher) (a r : Client) (K : List Byte) (writeOk : Bool)
    (hconn : a.connected = true) (hP : a.sendTE ≠ [])
    (haenc : a.encryptCb = true) (hakey : parseKey a.keyEdit = .ok K)
    (hrenc : r.encryptCb = true) (hrkey : parseKey r.keyEdit = .ok K)
    (hinv : C.Inverts K) (hU : Index (str ": ") a.username = none) :
    ∃ hex : GoString,
      desEncrypt C a.sendTE K = .ret hex ∧
      a.sendMessage C writeOk = .ret (a.writeMessage writeOk hex) ∧
      (a.writeMessage writeOk hex).1 = [.write (a.username ++ str ": " ++ hex)] ∧
      ((a.username ++ str ": " ++ hex).length ≤ bufSize →
        r.readLoop C (connRead (a.username ++ str ": " ++ hex)) =
          .ret ([.appendText (a.username ++ str ": " ++ a.sendTE ++ str "\r\n")], true)) := by
  have hK : K.length = 8 := parseKey_ok_length _ _ hakey
  refine ⟨_, desEncrypt_eq C a.sendTE K hK, ?_, rfl, ?_⟩
  · simp only [Client.sendMessage, hconn, hP, haenc, hakey, if_true, ne_eq, not_false_eq_true,
      desEncrypt_eq C a.sendTE K hK, Outcome.bind]
  · intro hfit
    rw [connRead_fits _ hfit]
    simp only [Client.readLoop, hrenc, hrkey, if_true, SplitN2_envelope _ _ hU,
      desDecrypt_encoded C a.sendTE K hK hinv, Outcome.bind]

/-- The amended C7 on DES: alice sends "hi" under the key "01234567", the wire
carries "alice: 71ab51dab4c7b7cb", and bob, with the same key, appends
"alice: hi" and a line end to his chat view. -/
theorem envelope_end_to_end_witness :
    Client.sendMessage DES
      { connected := true, username := str "alice", sendTE := str "hi", encryptCb := true,
        keyEdit := str "01234567" } true =
      .ret ([.write (str "alice: 71ab51dab4c7b7cb")],
        { connected := true, username := str "alice", sendTE := [], encryptCb := true,
          keyEdit := str "01234567" }) ∧
    Client.readLoop DES
      { connected := true, username := str "bob", sendTE := [], encryptCb := true,
        keyEdit := str " 01234567 " } (connRead (str "alice: 71ab51dab4c7b7cb")) =
      .ret ([.appendText (str "alice: hi\r\n")], true) := by
  obtain ⟨hex, henc, hsend, -, hrecv⟩ := envelope_end_to_end DES
    { connected := true, username := str "alice", sendTE := str "hi", encryptCb := true,
      keyEdit := str "01234567" }
    { connected := true, username := str "bob", sendTE := [], encryptCb := true,
      keyEdit := str " 01234567 " }
    (str "01234567") true rfl (by decide) rfl (by decide) rfl (by decide)
    (DES_Inverts _) (by decide)
  have hhex : desEncrypt DES (str "hi") (str "01234567") = .ret (str "71ab51dab4c7b7cb") := by
    decide!
  have hex_eq : hex = str "71ab51dab4c7b7cb" := by
    have h' : desEncrypt DES (str "hi") (str "01234567") = .ret hex := henc
    rw [hhex] at h'
    exact (Outcome.ret.inj h').symm
  subst hex_eq
  exact ⟨hsend, hrecv (by decide)⟩

/-- A username that contains the separator breaks the envelope: the claim C7
fails for the username "a: b". The sender writes "a: b: 71ab51dab4c7b7cb", the
bytes fit in one read, and the receiver, with the same key, takes "b: 71ab…" for
the body, which is not hexadecimal, and ends its process instead of appending
"a: b: hi". -/
theorem envelope_username_separator :
    (Client.sendMessage DES
      { connected := true, username := str "a: b", sendTE := str "hi", encryptCb := true,
        keyEdit := str "01234567" } true).bind (fun sent => .ret sent.1) =
      .ret [.write (str "a: b: 71ab51dab4c7b7cb")] ∧
    (str "a: b: 71ab51dab4c7b7cb").length ≤ bufSize ∧
    Client.readLoop DES
      { connected := true, username := str "bob", sendTE := [], encryptCb := true,
        keyEdit := str "01234567" } (connRead (str "a: b: 71ab51dab4c7b7cb")) = .fatal := by
  refine ⟨by decide!, by decide, by decide!⟩


/-! ## Lemmas: the registry and the broadcast -/

theorem visit_connections (writeOk : Conn → Bool) (msg : GoString) (s : Server) (conn : Conn) :
    (Server.visit writeOk msg s conn).connections =
      if writeOk conn then s.connections else s.connections.erase conn := by
  unfold Server.visit Server.Delete
  by_cases h : writeOk conn = true <;> simp [h]

theorem visit_writes (writeOk : Conn → Bool) (msg : GoString) (s : Server) (conn : Conn) :
    (Server.visit writeOk msg s conn).writes =
      s.writes ++ [{ conn := conn, data := msg, ok := writeOk conn }] := by
  unfold Server.visit Server.Delete
  by_cases h : writeOk conn = true <;> simp [h]

theorem visit_frame (writeOk : Conn → Bool) (msg : GoString) (s : Server) (conn : Conn) :
    (Server.visit writeOk msg s conn).msgch = s.msgch ∧
    (Server.visit writeOk msg s conn).bufs = s.bufs ∧
    (Server.visit writeOk msg s conn).closed = s.closed := by
  unfold Server.visit Server.Delete
  by_cases h : writeOk conn = true <;> simp [h]

theorem foldl_visit_writes (writeOk : Conn → Bool) (msg : GoString) :
    ∀ (cs : List Conn) (s : Server),
      (cs.foldl (Server.visit writeOk msg) s).writes =
        s.writes ++ cs.map fun c => { conn := c, data := msg, ok := writeOk c }
  | [], s => by simp
  | c :: cs, s => by
    rw [List.foldl_cons, foldl_visit_writes writeOk msg cs, visit_writes]
    simp

theorem foldl_visit_connections (writeOk : Conn → Bool) (msg : GoString) :
    ∀ (cs : List Conn) (s : Server), (∀ c ∈ cs, writeOk c = true) →
      (cs.foldl (Server.visit writeOk msg) s).connections = s.connections
  | [], _, _ => rfl
  | c :: cs, s, h => by
    rw [List.foldl_cons, foldl_visit_connections writeOk msg cs _
      (fun x hx => h x (List.mem_cons_of_mem _ hx)), visit_connections,
      if_pos (h c (List.mem_cons_self _ _))]

theorem foldl_visit_frame (writeOk : Conn → Bool) (msg : GoString) :
    ∀ (cs : List Conn) (s : Server),
      (cs.foldl (Server.visit writeOk msg) s).msgch = s.msgch ∧
      (cs.foldl (Server.visit writeOk msg) s).bufs = s.bufs ∧
      (cs.foldl (Server.visit writeOk msg) s).closed = s.closed
  | [], _ => ⟨rfl, rfl, rfl⟩
  | c :: cs, s => by
    obtain ⟨h1, h2, h3⟩ := foldl_visit_frame writeOk msg cs (Server.visit writeOk msg s c)
    obtain ⟨g1, g2, g3⟩ := visit_frame writeOk msg s c
    rw [List.foldl_cons]
    exact ⟨h1.trans g1, h2.trans g2, h3.trans g3⟩

theorem Broadcast_writes (s : Server) (writeOk : Conn → Bool) (msg : GoString) :
    (s.Broadcast writeOk msg).writes =
      s.writes ++ s.connections.map fun c => { conn := c, data := msg, ok := writeOk c } :=
  foldl_visit_writes writeOk msg s.connections s

theorem filter_map_conn (writeOk : Conn → Bool) (msg : GoString) (conn : Conn) :
    ∀ cs : List Conn, cs.Nodup → conn ∈ cs →
      (cs.map fun c => ({ conn := c, data := msg, ok := writeOk c } : WriteCall)).filter
        (fun w => w.conn = conn) = [{ conn := conn, data := msg, ok := writeOk conn }]
  | [], _, h => by simp at h
  | c :: cs, hnd, h => by
    rw [List.nodup_cons] at hnd
    by_cases hc : c = conn
    · subst hc
      have hnone : (cs.map fun x => ({ conn := x, data := msg, ok := writeOk x } : WriteCall)).filter
          (fun w => w.conn = c) = [] := by
        rw [List.filter_eq_nil_iff]
        intro w hw
        obtain ⟨x, hx, rfl⟩ := List.mem_map.mp hw
        simp only [decide_eq_true_eq]
        intro hxc
        exact hnd.1 (hxc ▸ hx)
      simp [List.filter_cons, hnone]
    · have hmem : conn ∈ cs := by
        rcases List.mem_cons.mp h with h' | h'
        · exact absurd h'.symm hc
        · exact h'
      simp [List.filter_cons, hc, filter_map_conn writeOk msg conn cs hnd.2 hmem]


theorem foldl_visit_connections_filter (writeOk : Conn → Bool) (msg : GoString) :
    ∀ (cs : List Conn) (s : Server), s.connections.Nodup →
      (cs.foldl (Server.visit writeOk msg) s).connections =
        s.connections.filter fun x => decide (x ∈ cs → writeOk x = true)
  | [], s, _ => by simp
  | c :: cs, s, hnd => by
    rw [List.foldl_cons]
    have hnd' : (Server.visit writeOk msg s c).connections.Nodup := by
      rw [visit_connections]
      split
      · exact hnd
      · exact hnd.erase c
    rw [foldl_visit_connections_filter writeOk msg cs _ hnd', visit_connections]
    by_cases hc : writeOk c = true
    · rw [if_pos hc]
      apply List.filter_congr
      intro x _
      by_cases hx : x = c
      · subst hx; simp [hc]
      · simp [hx]
    · rw [if_neg hc, hnd.erase_eq_filter, List.filter_filter]
      apply List.filter_congr
      intro x _
      by_cases hx : x = c
      · subst hx; simp [hc]
      · simp [hx]

theorem Broadcast_connections (s : Server) (writeOk : Conn → Bool) (msg : GoString)
    (hnd : s.connections.Nodup) :
    (s.Broadcast writeOk msg).connections = s.connections.filter fun c => writeOk c := by
  unfold Server.Broadcast
  rw [foldl_visit_connections_filter writeOk msg _ s hnd]
  apply List.filter_congr
  intro x hx
  simp [hx]

/-! ## Lemmas: the registry is a map -/

theorem Store_nodup (s : Server) (conn : Conn) (h : s.connections.Nodup) :
    (s.Store conn).connections.Nodup := by
  unfold Server.Store
  split
  · exact h
  · rename_i hmem
    show (s.connections ++ [conn]).Nodup
    rw [List.nodup_append]
    refine ⟨h, List.nodup_singleton _, ?_⟩
    intro a ha hb
    rw [List.mem_singleton] at hb
    exact hmem (hb ▸ ha)

theorem accept_nodup (s : Server) (conn : Conn) (h : s.connections.Nodup) :
    (s.accept conn).connections.Nodup := Store_nodup s conn h

theorem readLoop_nodup (s : Server) (conn : Conn) (r : ReadResult) (h : s.connections.Nodup) :
    (s.readLoop conn r).server.connections.Nodup := by
  cases r with
  | err => exact h.erase conn
  | data bytes =>
    unfold Server.readLoop
    simp only
    split <;> exact h

theorem Broadcast_nodup (s : Server) (writeOk : Conn → Bool) (msg : GoString)
    (h : s.connections.Nodup) : (s.Broadcast writeOk msg).connections.Nodup := by
  rw [Broadcast_connections s writeOk msg h]
  exact h.filter _

/-! ## Theorems: the relay server -/

/-- C5. Broadcast fan-out with self-echo: for every registry (a map, so every
connection is held once) on whose connections writes succeed and for every
payload, `Broadcast` leaves the registry as it was and makes exactly one call of
`conn.Write` on each registered connection, the connection the message came from
included, with exactly the bytes of the payload, and no call on any other
connection. -/
theorem Broadcast_fan_out (s : Server) (writeOk : Conn → Bool) (msg : GoString)
    (hnd : s.connections.Nodup) (hok : ∀ c ∈ s.connections, writeOk c = true) :
    (s.Broadcast writeOk msg).connections = s.connections ∧
    ∃ calls : List WriteCall,
      (s.Broadcast writeOk msg).writes = s.writes ++ calls ∧
      calls.length = s.connections.length ∧
      (∀ c ∈ s.connections,
        calls.filter (fun w => w.conn = c) = [{ conn := c, data := msg, ok := true }]) ∧
      (∀ w ∈ calls, w.conn ∈ s.connections ∧ w.data = msg) := by
  refine ⟨foldl_visit_connections writeOk msg _ s hok, _, Broadcast_writes s writeOk msg, ?_,
    ?_, ?_⟩
  · rw [List.length_map]
  · intro c hc
    rw [filter_map_conn writeOk msg c _ hnd hc, hok c hc]
  · intro w hw
    obtain ⟨x, hx, rfl⟩ := List.mem_map.mp hw
    exact ⟨hx, rfl⟩

/-- The fan-out of C5 on two connections: the payload "alice: hi" is written
once to connection 1 and once to connection 2, and both stay registered. -/
theorem Broadcast_fan_out_witness :
    twoClients.connections.Nodup ∧
    (∀ c ∈ twoClients.connections, (fun _ : Conn => true) c = true) ∧
    (twoClients.Broadcast (fun _ => true) (str "alice: hi")).connections = [1, 2] ∧
    (twoClients.Broadcast (fun _ => true) (str "alice: hi")).writes =
      [⟨1, str "alice: hi", true⟩, ⟨2, str "alice: hi", true⟩] :=
  ⟨by decide, fun _ _ => rfl,
    (Broadcast_fan_out twoClients (fun _ => true) (str "alice: hi") (by decide)
      (fun _ _ => rfl)).1,
    by decide⟩

/-- C6. Write-failure isolation: for every registry (a map, so every connection
is held once) and whichever of its connections fail their write, `Broadcast`
still calls `conn.Write` once with the payload on every registered connection,
so on every connection whose write succeeds; when it returns the registry is
exactly the initial registry without the connections whose write failed; and a
later `Broadcast` makes no call on any of those. -/
theorem Broadcast_write_failure (s : Server) (writeOk : Conn → Bool) (msg : GoString)
    (hnd : s.connections.Nodup) :
    (s.Broadcast writeOk msg).connections = s.connections.filter (fun c => writeOk c) ∧
    (∃ calls : List WriteCall,
      (s.Broadcast writeOk msg).writes = s.writes ++ calls ∧
      ∀ c ∈ s.connections,
        calls.filter (fun w => w.conn = c) = [{ conn := c, data := msg, ok := writeOk c }]) ∧
    ∀ (writeOk' : Conn → Bool) (msg' : GoString), ∃ later : List WriteCall,
      ((s.Broadcast writeOk msg).Broadcast writeOk' msg').writes =
        (s.Broadcast writeOk msg).writes ++ later ∧
      ∀ w ∈ later, w.conn ∈ s.connections ∧ writeOk w.conn = true := by
  refine ⟨Broadcast_connections s writeOk msg hnd, ⟨_, Broadcast_writes s writeOk msg, ?_⟩, ?_⟩
  · intro c hc
    exact filter_map_conn writeOk msg c _ hnd hc
  · intro writeOk' msg'
    refine ⟨_, Broadcast_writes _ writeOk' msg', ?_⟩
    intro w hw
    obtain ⟨x, hx, rfl⟩ := List.mem_map.mp hw
    rw [Broadcast_connections s writeOk msg hnd, List.mem_filter] at hx
    exact hx

/-- The isolation of C6 on two connections of which the second fails its
write: connection 1 still gets the payload, connection 2 leaves the registry,
and the next broadcast writes to connection 1 only. -/
theorem Broadcast_write_failure_witness :
    twoClients.connections.Nodup ∧
    (twoClients.Broadcast (fun c => c != 2) (str "alice: hi")).connections = [1] ∧
    (twoClients.Broadcast (fun c => c != 2) (str "alice: hi")).writes =
      [⟨1, str "alice: hi", true⟩, ⟨2, str "alice: hi", false⟩] ∧
    ((twoClients.Broadcast (fun c => c != 2) (str "alice: hi")).Broadcast
        (fun _ => true) (str "alice: yo")).writes =
      [⟨1, str "alice: hi", true⟩, ⟨2, str "alice: hi", false⟩, ⟨1, str "alice: yo", true⟩] :=
  ⟨by decide,
    (Broadcast_write_failure twoClients (fun c => c != 2) (str "alice: hi") (by decide)).1,
    by decide, by decide⟩

/-- C9. Read failure is terminal for one connection only: for every registry (a
map, so every connection is held once) and every connection `c`, when the read
on `c` fails `readLoop` returns; no message was sent on the channel and none was
removed from it, `c` is closed and is no longer in the registry, and every other
connection is in the registry exactly if it was before. -/
theorem readLoop_read_error (s : Server) (c : Conn) (hnd : s.connections.Nodup) :
    ∃ s' : Server, s.readLoop c .err = .returned s' ∧
      s'.msgch = s.msgch ∧
      s'.closed = c :: s.closed ∧
      c ∉ s'.connections ∧
      s'.connections = s.connections.erase c ∧
      (∀ d, d ≠ c → (d ∈ s'.connections ↔ d ∈ s.connections)) ∧
      s'.writes = s.writes := by
  refine ⟨s.readLoopDefer c, rfl, rfl, rfl, ?_, rfl, ?_, rfl⟩
  · show c ∉ s.connections.erase c
    exact hnd.not_mem_erase
  · intro d hd
    show d ∈ s.connections.erase c ↔ d ∈ s.connections
    exact List.mem_erase_of_ne hd

/-- The read failure of C9 on two connections: when the read on connection 2
fails, connection 2 is closed and removed, and connection 1 stays. -/
theorem readLoop_read_error_witness :
    twoClients.connections.Nodup ∧
    ∃ s' : Server, twoClients.readLoop 2 .err = .returned s' ∧
      s'.msgch = twoClients.msgch ∧
      s'.closed = 2 :: twoClients.closed ∧
      2 ∉ s'.connections ∧
      s'.connections = twoClients.connections.erase 2 ∧
      (∀ d, d ≠ 2 → (d ∈ s'.connections ↔ d ∈ twoClients.connections)) ∧
      s'.writes = twoClients.writes :=
  ⟨by decide, readLoop_read_error twoClients 2 (by decide)⟩

theorem readLoop_payload_at_send (s : Server) (c : Conn) (data : List Byte)
    (hroom : s.msgch.length < msgchCap) :
    ∃ s' : Server, s.readLoop c (.data data) = .sent s' ∧
      s'.msgch = s.msgch ++ [⟨c, ⟨c, (data.take bufSize).length⟩⟩] ∧
      s'.bytes ⟨c, (data.take bufSize).length⟩ = data.take bufSize := by
  have hroom' : (s.readInto c data).msgch.length < msgchCap := hroom
  refine ⟨{ s.readInto c data with
      msgch := (s.readInto c data).msgch ++ [⟨c, ⟨c, (data.take bufSize).length⟩⟩] }, ?_, rfl, ?_⟩
  · simp only [Server.readLoop, hroom', if_true]
  · simp [Server.bytes, Server.readInto]

/-- C4. The payload of a message on the channel is a slice of the one buffer of
its `readLoop`, and the next read overwrites that buffer: after the reads
"hello" and "bye" on connection 1, with both messages still on the channel, the
first message holds "byelo" and no longer "hello", and that is what the
broadcaster writes when it receives the message. -/
theorem readLoop_payload_overwritten :
    firstRead.msgch = [⟨1, ⟨1, 5⟩⟩] ∧
    firstRead.bytes ⟨1, 5⟩ = str "hello" ∧
    secondRead.msgch = [⟨1, ⟨1, 5⟩⟩, ⟨1, ⟨1, 3⟩⟩] ∧
    secondRead.bytes ⟨1, 5⟩ = str "byelo" ∧
    (secondRead.deliver (fun _ => true)).map (fun s => s.writes) =
      some [⟨1, str "byelo", true⟩] := by
  decide


end DesChat
